import Mathlib

/-!
# Verification of `captum/metrics/_utils/batching.py`

Shallow embedding of `_divide_and_aggregate_metrics` from
`src/captum/metrics/_utils/batching.py` and proofs about it.

Embedding conventions:
* Python integers are `Int`; Python floor division `//` is `Int.fdiv`.
* The optional parameter `max_examples_per_batch` is `Option Int`.
* Tensors are abstracted: the accumulator and metric values live in an
  arbitrary type `α`; `agg_func : α → α → α`, `metric_func : Int → α`
  (the source calls `metric_func` with a single integer, the number of
  samples for the current sub-batch), and the initial accumulator
  `torch.zeros(bsz)` is a parameter `zeros : α`.  Where a claim needs
  elementwise arithmetic the type is instantiated with `Fin b → Int`.
* The call to `warnings.warn` is modelled by counting emissions.
-/

namespace Captum

universe u

variable {α : Type u}

/-- The guard of the `warnings.warn` call in `_divide_and_aggregate_metrics`:
`max_examples_per_batch is not None and (max_examples_per_batch // bsz < 1
or max_examples_per_batch // bsz > n_samples)`. -/
def warnCondition (bsz n_samples : Int) (max_examples_per_batch : Option Int) : Bool :=
  match max_examples_per_batch with
  | none => false
  | some cap => decide (cap.fdiv bsz < 1 ∨ n_samples < cap.fdiv bsz)

/-- Number of warnings emitted by one call of `_divide_and_aggregate_metrics`
(`warnings.warn` is executed once when `warnCondition` holds, otherwise not
at all). -/
def warnCount (bsz n_samples : Int) (max_examples_per_batch : Option Int) : Nat :=
  if warnCondition bsz n_samples max_examples_per_batch then 1 else 0

/-- The resolved chunk width, named `max_inps_per_batch` in the source:
`n_samples if max_examples_per_batch is None
 else min(max(max_examples_per_batch // bsz, 1), n_samples)`. -/
def max_inps_per_batch (bsz n_samples : Int) (max_examples_per_batch : Option Int) : Int :=
  match max_examples_per_batch with
  | none => n_samples
  | some cap => min (max (cap.fdiv bsz) 1) n_samples

/-- The `while current_n_steps < n_samples` loop of
`_divide_and_aggregate_metrics`.  Each iteration advances
`current_n_steps` by `max_inps`, calls `metric_func` on `max_inps` (or on
`max_inps - (current_n_steps - n_samples)` when the advanced counter
overshoots `n_samples`), clamps `current_n_steps` to `n_samples`, and
aggregates with `agg_func`.

The extra conjunct `0 < max_inps` in the guard is required for totality in
Lean; the Python loop diverges when `0 < n_samples` and
`max_inps_per_batch ≤ 0`, a state that is unreachable from the function's
entry point (the resolved width is positive whenever the loop is entered),
so on all reachable states this definition agrees with the source. -/
def aggregateLoop (agg_func : α → α → α) (metric_func : Int → α)
    (max_inps n_samples : Int) (current_n_steps : Int) (metrics_sum : α) : α :=
  if h : current_n_steps < n_samples ∧ 0 < max_inps then
    aggregateLoop agg_func metric_func max_inps n_samples
      (min (current_n_steps + max_inps) n_samples)
      (agg_func metrics_sum (metric_func
        (if current_n_steps + max_inps ≤ n_samples then max_inps
         else max_inps - (current_n_steps + max_inps - n_samples))))
  else metrics_sum
termination_by (n_samples - current_n_steps).toNat
decreasing_by
  omega

/-- The trace of widths passed to `metric_func` by `aggregateLoop`, one per
loop iteration, computed by the same recursion. -/
def chunkWidths (max_inps n_samples : Int) (current_n_steps : Int) : List Int :=
  if h : current_n_steps < n_samples ∧ 0 < max_inps then
    (if current_n_steps + max_inps ≤ n_samples then max_inps
     else max_inps - (current_n_steps + max_inps - n_samples))
      :: chunkWidths max_inps n_samples (min (current_n_steps + max_inps) n_samples)
  else []
termination_by (n_samples - current_n_steps).toNat
decreasing_by
  omega

/-- `_divide_and_aggregate_metrics`: resolve the chunk width, then run the
aggregation loop from `current_n_steps = 0` with accumulator `zeros`
(modelling `torch.zeros(bsz)`). -/
def divide_and_aggregate_metrics (agg_func : α → α → α) (metric_func : Int → α)
    (zeros : α) (bsz n_samples : Int) (max_examples_per_batch : Option Int) : α :=
  aggregateLoop agg_func metric_func
    (max_inps_per_batch bsz n_samples max_examples_per_batch) n_samples 0 zeros

/-- `_divide_and_aggregate_metrics` together with its observable side
effect: the pair (number of warnings emitted, returned value). -/
def divide_and_aggregate_metrics_run (agg_func : α → α → α) (metric_func : Int → α)
    (zeros : α) (bsz n_samples : Int) (max_examples_per_batch : Option Int) : Nat × α :=
  (warnCount bsz n_samples max_examples_per_batch,
   divide_and_aggregate_metrics agg_func metric_func zeros bsz n_samples
     max_examples_per_batch)

/-- One iteration of the `while` loop as a step function on the state
`(current_n_steps, metrics_sum)`; states with `current_n_steps ≥ n_samples`
are terminal (the guard fails and the state is left unchanged). -/
def aggregateStep (agg_func : α → α → α) (metric_func : Int → α)
    (max_inps n_samples : Int) : Int × α → Int × α :=
  fun s =>
    if s.1 < n_samples then
      (min (s.1 + max_inps) n_samples,
       agg_func s.2 (metric_func
         (if s.1 + max_inps ≤ n_samples then max_inps
          else max_inps - (s.1 + max_inps - n_samples))))
    else s

/-- Ceiling division on `Nat`: `⌈a / b⌉`. -/
def ceilDiv (a b : Nat) : Nat := (a + b - 1) / b

theorem aggregateLoop_eq_foldl (agg_func : α → α → α) (metric_func : Int → α)
    (w n : Int) :
    ∀ (k : Nat) (current : Int) (z : α), (n - current).toNat = k →
      aggregateLoop agg_func metric_func w n current z
        = List.foldl (fun acc wi => agg_func acc (metric_func wi)) z
            (chunkWidths w n current) := by
  intro k
  induction k using Nat.strong_induction_on with
  | _ k ih =>
    intro current z hk
    rw [aggregateLoop.eq_def, chunkWidths.eq_def]
    by_cases h : current < n ∧ 0 < w
    · rw [dif_pos h, dif_pos h, List.foldl_cons]
      exact ih _ (by omega) _ _ rfl
    · rw [dif_neg h, dif_neg h, List.foldl_nil]

theorem chunkWidths_sum (w n : Int) (hw : 0 < w) :
    ∀ (k : Nat) (current : Int), (n - current).toNat = k → current ≤ n →
      (chunkWidths w n current).sum = n - current := by
  intro k
  induction k using Nat.strong_induction_on with
  | _ k ih =>
    intro current hk hc
    by_cases h : current < n ∧ 0 < w
    · rw [chunkWidths.eq_def, dif_pos h, List.sum_cons,
        ih ((n - min (current + w) n).toNat) (by omega) (min (current + w) n) rfl (by omega)]
      split <;> omega
    · rw [chunkWidths.eq_def, dif_neg h, List.sum_nil]
      omega

theorem ceilDiv_rec (r b : Nat) (hb : 1 ≤ b) (hr : 1 ≤ r) :
    ceilDiv r b = ceilDiv (r - b) b + 1 := by
  unfold ceilDiv
  have h1 : r + b - 1 = (r - 1) + b := by omega
  rw [h1, Nat.add_div_right _ (by omega)]
  congr 1
  by_cases h : r ≤ b
  · have h2 : r - b = 0 := by omega
    rw [h2, Nat.div_eq_of_lt (by omega), Nat.div_eq_of_lt (by omega)]
  · have h2 : r - b + b - 1 = r - 1 := by omega
    rw [h2]

theorem ceilDiv_zero_left (b : Nat) : ceilDiv 0 b = 0 := by
  unfold ceilDiv
  rcases Nat.eq_zero_or_pos b with hb | hb
  · rw [hb]
  · rw [Nat.div_eq_of_lt (by omega)]

theorem chunkWidths_length (w n : Int) (hw : 1 ≤ w) :
    ∀ (k : Nat) (current : Int), (n - current).toNat = k → current ≤ n →
      (chunkWidths w n current).length = ceilDiv (n - current).toNat w.toNat := by
  intro k
  induction k using Nat.strong_induction_on with
  | _ k ih =>
    intro current hk hc
    by_cases h : current < n ∧ 0 < w
    · rw [chunkWidths.eq_def, dif_pos h, List.length_cons,
        ih ((n - min (current + w) n).toNat) (by omega) (min (current + w) n) rfl (by omega),
        ceilDiv_rec ((n - current).toNat) w.toNat (by omega) (by omega)]
      congr 2
      omega
    · rw [chunkWidths.eq_def, dif_neg h, List.length_nil]
      have h2 : (n - current).toNat = 0 := by omega
      rw [h2, ceilDiv_zero_left]

/-- Structure of the width trace: all but the last chunk have the full
width `w`, the last chunk has the remaining width, and every chunk width
lies in `[1, w]`. -/
theorem chunkWidths_shape (w n : Int) (hw : 1 ≤ w) :
    ∀ (k : Nat) (current : Int), (n - current).toNat = k → current < n →
      ∃ j : Nat, chunkWidths w n current
          = List.replicate j w ++ [n - current - (j : Int) * w]
        ∧ 1 ≤ n - current - (j : Int) * w ∧ n - current - (j : Int) * w ≤ w := by
  intro k
  induction k using Nat.strong_induction_on with
  | _ k ih =>
    intro current hk hc
    have h : current < n ∧ 0 < w := ⟨hc, by omega⟩
    rw [chunkWidths.eq_def, dif_pos h]
    by_cases h2 : current + w < n
    · rcases ih ((n - min (current + w) n).toNat) (by omega) (min (current + w) n) rfl
          (by omega) with ⟨j, hj, hlo, hhi⟩
      have hmin : min (current + w) n = current + w := by omega
      rw [hmin] at hj hlo hhi
      have hmul : ((j : Int) + 1) * w = (j : Int) * w + w := by ring
      refine ⟨j + 1, ?_, by push_cast; omega, by push_cast; omega⟩
      rw [if_pos (by omega), hmin, List.replicate_succ, List.cons_append, hj]
      have h3 : n - (current + w) - (j : Int) * w
          = n - current - ((j : Int) + 1) * w := by omega
      rw [h3]
      push_cast
      rfl
    · refine ⟨0, ?_, by omega, ?_⟩
      · have h4 : chunkWidths w n (min (current + w) n) = [] := by
          rw [chunkWidths.eq_def, dif_neg]
          intro hcon
          omega
        rw [h4, List.replicate_zero, List.nil_append]
        have h5 : (if current + w ≤ n then w else w - (current + w - n))
            = n - current - (0 : Int) * w := by
          split <;> omega
        rw [h5]
        norm_num
      · omega

theorem max_inps_bounds (bsz n : Int) (cap : Option Int) (hn : 1 ≤ n) :
    1 ≤ max_inps_per_batch bsz n cap ∧ max_inps_per_batch bsz n cap ≤ n := by
  rcases cap with _ | c
  · exact ⟨hn, le_refl n⟩
  · simp only [max_inps_per_batch]
    omega

theorem warnCondition_iff (bsz n c : Int) (hb : 1 ≤ bsz) :
    warnCondition bsz n (some c) = true ↔ (c < bsz ∨ bsz * (n + 1) ≤ c) := by
  have h0 : (0:Int) < bsz := by omega
  have hfd : c.fdiv bsz = c / bsz := Int.fdiv_eq_ediv _ h0.le
  simp only [warnCondition, decide_eq_true_eq, hfd]
  rw [Int.ediv_lt_iff_lt_mul h0]
  have hB : n < c / bsz ↔ (n + 1) * bsz ≤ c := by
    rw [Int.lt_iff_add_one_le, Int.le_ediv_iff_mul_le h0]
  rw [hB, Int.one_mul, Int.mul_comm bsz (n + 1)]

theorem foldl_agg_const (agg : α → α → α) (m : Int → α) (v : α) (hm : ∀ x, m x = v) :
    ∀ (L : List Int) (z : α),
      List.foldl (fun acc wi => agg acc (m wi)) z L = (fun a => agg a v)^[L.length] z := by
  intro L
  induction L with
  | nil => intro z; rfl
  | cons x L ih =>
    intro z
    rw [List.foldl_cons, ih, List.length_cons, Function.iterate_succ_apply, hm]

theorem chunkWidths_none (n : Int) (hn : 1 ≤ n) : chunkWidths n n 0 = [n] := by
  rw [chunkWidths.eq_def, dif_pos (⟨by omega, by omega⟩ : (0:Int) < n ∧ (0:Int) < n),
    if_pos (by omega : (0:Int) + n ≤ n)]
  have h0 : ¬ (min ((0:Int) + n) n < n ∧ (0:Int) < n) := by omega
  rw [chunkWidths.eq_def, dif_neg h0]

/-- Starting from any state `(current, z)` with `current ≤ n`, the loop
reaches a terminal state (`current_n_steps = n_samples`) after finitely
many applications of `aggregateStep`, and the value it carries there is
exactly the value computed by `aggregateLoop`. -/
theorem aggregateLoop_run (agg : α → α → α) (m : Int → α) (w n : Int) (hw : 1 ≤ w) :
    ∀ (kk : Nat) (current : Int) (z : α), (n - current).toNat = kk → current ≤ n →
      ∃ k : Nat, ((aggregateStep agg m w n)^[k] (current, z)).1 = n
        ∧ aggregateLoop agg m w n current z
            = ((aggregateStep agg m w n)^[k] (current, z)).2 := by
  intro kk
  induction kk using Nat.strong_induction_on with
  | _ kk ih =>
    intro current z hk hc
    by_cases h : current < n
    · obtain ⟨k, h1, h2⟩ := ih ((n - min (current + w) n).toNat) (by omega)
        (min (current + w) n)
        (agg z (m (if current + w ≤ n then w
                   else w - (current + w - n)))) rfl (by omega)
      have hstep : aggregateStep agg m w n (current, z)
          = (min (current + w) n,
             agg z (m (if current + w ≤ n then w
                       else w - (current + w - n)))) := by
        simp only [aggregateStep]
        rw [if_pos (show ((current, z) : Int × α).1 < n from h)]
      refine ⟨k + 1, ?_, ?_⟩
      · rw [Function.iterate_succ_apply, hstep]
        exact h1
      · rw [aggregateLoop.eq_def, dif_pos ⟨h, by omega⟩,
          Function.iterate_succ_apply, hstep]
        exact h2
    · have hcn : current = n := by omega
      subst hcn
      refine ⟨0, rfl, ?_⟩
      rw [aggregateLoop.eq_def, dif_neg (by omega : ¬ (current < current ∧ 0 < w))]
      rfl

/-- C1: for every `n_samples ≥ 1` and every chunk width
`max_inps_per_batch ∈ [1, n_samples]`, the actual widths passed to
`metric_func` across the loop iterations of
`_divide_and_aggregate_metrics` sum to exactly `n_samples`: no sample is
double-counted or skipped. -/
theorem claim_coverage_sum (w n : Int) (hn : 1 ≤ n) (h1 : 1 ≤ w) (h2 : w ≤ n) :
    (chunkWidths w n 0).sum = n := by
  have h := chunkWidths_sum w n (by omega) ((n - 0).toNat) 0 rfl (by omega)
  simpa using h

theorem claim_coverage_sum_witness :
    (1 ≤ (5:Int)) ∧ (1 ≤ (2:Int)) ∧ ((2:Int) ≤ 5) ∧ (chunkWidths 2 5 0).sum = 5 :=
  ⟨by decide, by decide, by decide, claim_coverage_sum 2 5 (by decide) (by decide) (by decide)⟩

/-- C2: for every `n_samples ≥ 1` and chunk width in `[1, n_samples]` the
while loop executes exactly `⌈n_samples / chunk_width⌉` iterations, i.e.
`metric_func` (and hence `agg_func`) is invoked once per entry of the
width trace, whose length is `⌈n_samples / chunk_width⌉`. -/
theorem claim_iteration_count (w n : Int) (hn : 1 ≤ n) (h1 : 1 ≤ w) (h2 : w ≤ n) :
    (chunkWidths w n 0).length = ceilDiv n.toNat w.toNat := by
  have h := chunkWidths_length w n h1 ((n - 0).toNat) 0 rfl (by omega)
  simpa using h

theorem claim_iteration_count_witness :
    (1 ≤ (5:Int)) ∧ (1 ≤ (2:Int)) ∧ ((2:Int) ≤ 5)
    ∧ (chunkWidths 2 5 0).length = ceilDiv 5 2 :=
  ⟨by decide, by decide, by decide,
   claim_iteration_count 2 5 (by decide) (by decide) (by decide)⟩

/-- C3: for every `bsz ≥ 1`, `n_samples ≥ 1` and every cap (any integer or
absent), the resolved chunk width satisfies
`1 ≤ max_inps_per_batch ≤ n_samples`; when the cap is present it equals
`min(max(cap // bsz, 1), n_samples)` and when absent it equals
`n_samples`. -/
theorem claim_chunk_width_clamped (bsz n : Int) (cap : Option Int)
    (hb : 1 ≤ bsz) (hn : 1 ≤ n) :
    (1 ≤ max_inps_per_batch bsz n cap ∧ max_inps_per_batch bsz n cap ≤ n)
    ∧ (∀ c : Int, cap = some c →
        max_inps_per_batch bsz n cap = min (max (c.fdiv bsz) 1) n)
    ∧ (cap = none → max_inps_per_batch bsz n cap = n) := by
  refine ⟨max_inps_bounds bsz n cap hn, ?_, ?_⟩
  · intro c hc
    rw [hc]
    rfl
  · intro hc
    rw [hc]
    rfl

theorem claim_chunk_width_clamped_witness :
    (1 ≤ (2:Int)) ∧ (1 ≤ (5:Int))
    ∧ ((1 ≤ max_inps_per_batch 2 5 (some (-3))
          ∧ max_inps_per_batch 2 5 (some (-3)) ≤ 5)
        ∧ (∀ c : Int, (some (-3) : Option Int) = some c →
            max_inps_per_batch 2 5 (some (-3)) = min (max (c.fdiv 2) 1) 5)
        ∧ ((some (-3) : Option Int) = none → max_inps_per_batch 2 5 (some (-3)) = 5)) :=
  ⟨by decide, by decide, claim_chunk_width_clamped 2 5 (some (-3)) (by decide) (by decide)⟩

/-- C4: the warning is emitted exactly once iff `max_examples_per_batch`
is present and `cap // bsz < 1` or `cap // bsz > n_samples`; in every
other case (including an absent cap) no warning is emitted, and the
emission has no effect on the returned result, which is always the
warning-free computation `divide_and_aggregate_metrics` (whose chunk
width `max_inps_per_batch` does not depend on the warning). -/
theorem claim_warning_side_effect (agg_func : α → α → α) (metric_func : Int → α)
    (zeros : α) (bsz n : Int) (cap : Option Int) :
    ((divide_and_aggregate_metrics_run agg_func metric_func zeros bsz n cap).1
        = warnCount bsz n cap)
    ∧ (warnCount bsz n cap = 1
        ↔ ∃ c, cap = some c ∧ (c.fdiv bsz < 1 ∨ n < c.fdiv bsz))
    ∧ (warnCount bsz n cap = 0
        ↔ ¬ ∃ c, cap = some c ∧ (c.fdiv bsz < 1 ∨ n < c.fdiv bsz))
    ∧ ((divide_and_aggregate_metrics_run agg_func metric_func zeros bsz n cap).2
        = divide_and_aggregate_metrics agg_func metric_func zeros bsz n cap) := by
  refine ⟨rfl, ?_, ?_, rfl⟩
  · rcases cap with _ | c
    · simp [warnCount, warnCondition]
    · by_cases h : (c.fdiv bsz < 1 ∨ n < c.fdiv bsz) <;>
        simp [warnCount, warnCondition, h]
  · rcases cap with _ | c
    · simp [warnCount, warnCondition]
    · by_cases h : (c.fdiv bsz < 1 ∨ n < c.fdiv bsz) <;>
        simp [warnCount, warnCondition, h]

/-- C5 as stated is false: with `bsz = 2`, `n_samples = 3`,
`max_examples_per_batch = 7` we have `cap > bsz * n_samples = 6`, yet
`7 // 2 = 3` is not greater than `n_samples = 3`, so the code's warning
condition does not hold. -/
theorem claim_warning_interval_counterexample :
    ¬ (warnCondition 2 3 (some 7) = true ↔ ((7:Int) < 2 ∨ 2 * 3 < 7)) := by
  decide

/-- C5 amended: for `bsz ≥ 1`, `n_samples ≥ 1` and every present cap, the
code's condition `cap // bsz < 1 or cap // bsz > n_samples` holds iff
`cap < bsz` or `cap ≥ bsz * (n_samples + 1)`; i.e. the no-warning
interval is `[bsz, bsz * (n_samples + 1) - 1]`, not
`[bsz, bsz * n_samples]`. -/
theorem claim_warning_interval_amended (bsz n c : Int) (hb : 1 ≤ bsz) (hn : 1 ≤ n) :
    (warnCondition bsz n (some c) = true ↔ (c < bsz ∨ bsz * (n + 1) ≤ c)) :=
  warnCondition_iff bsz n c hb

theorem claim_warning_interval_amended_witness :
    (1 ≤ (2:Int)) ∧ (1 ≤ (3:Int))
    ∧ (warnCondition 2 3 (some 7) = true ↔ ((7:Int) < 2 ∨ (2:Int) * (3 + 1) ≤ 7)) :=
  ⟨by decide, by decide, claim_warning_interval_amended 2 3 7 (by decide) (by decide)⟩

/-- C6: when `max_examples_per_batch` is `None` and `n_samples ≥ 1`, the
loop performs exactly one iteration whose width is `n_samples`, so the
result is a single aggregation of a single `metric_func` invocation at
width `n_samples`. -/
theorem claim_no_cap_single_call (agg_func : α → α → α) (metric_func : Int → α)
    (zeros : α) (bsz n : Int) (hn : 1 ≤ n) :
    divide_and_aggregate_metrics agg_func metric_func zeros bsz n none
        = agg_func zeros (metric_func n)
    ∧ chunkWidths (max_inps_per_batch bsz n none) n 0 = [n] := by
  have hl : chunkWidths n n 0 = [n] := chunkWidths_none n hn
  constructor
  · show aggregateLoop agg_func metric_func n n 0 zeros
        = agg_func zeros (metric_func n)
    rw [aggregateLoop_eq_foldl agg_func metric_func n n ((n - 0).toNat) 0 zeros rfl, hl]
    rfl
  · exact hl

theorem claim_no_cap_single_call_witness :
    (1 ≤ (3:Int))
    ∧ (divide_and_aggregate_metrics (fun x y => x + y) (fun x => x) (0:Int) 2 3 none
          = (fun x y => x + y) 0 ((fun x : Int => x) 3)
        ∧ chunkWidths (max_inps_per_batch 2 3 none) 3 0 = [3]) :=
  ⟨by decide,
   claim_no_cap_single_call (fun x y => x + y) (fun x : Int => x) 0 2 3 (by decide)⟩

theorem iterate_add_apply (b : Nat) (V : Fin b → Int) (k : Nat) :
    ∀ (z : Fin b → Int) (i : Fin b),
      ((fun a => a + V)^[k] z) i = z i + (k : Int) * V i := by
  induction k with
  | zero =>
    intro z i
    simp
  | succ k ih =>
    intro z i
    rw [Function.iterate_succ_apply, ih]
    simp only [Pi.add_apply]
    push_cast
    ring

/-- C7: with the default elementwise addition as `agg_func` and a
`metric_func` that returns the same array `V` of shape `[bsz]` for every
requested width, `_divide_and_aggregate_metrics` returns `V` multiplied
elementwise by the number of loop iterations
`⌈n_samples / chunk_width⌉`. -/
theorem claim_constant_metric_scaling (b : Nat) (V : Fin b → Int) (n : Int)
    (cap : Option Int) (hn : 1 ≤ n) (i : Fin b) :
    divide_and_aggregate_metrics (fun x y => x + y) (fun _ => V)
        (fun _ => (0:Int)) (b : Int) n cap i
      = (ceilDiv n.toNat (max_inps_per_batch (b : Int) n cap).toNat : Int) * V i := by
  obtain ⟨hw1, hw2⟩ := max_inps_bounds (b : Int) n cap hn
  have h3 := chunkWidths_length (max_inps_per_batch (b : Int) n cap) n hw1
      ((n - 0).toNat) 0 rfl (by omega)
  simp only [sub_zero] at h3
  show aggregateLoop (fun x y => x + y) (fun _ => V)
      (max_inps_per_batch (b : Int) n cap) n 0 (fun _ => (0:Int)) i = _
  rw [aggregateLoop_eq_foldl (fun x y => x + y) (fun _ => V)
        (max_inps_per_batch (b : Int) n cap) n ((n - 0).toNat) 0 (fun _ => (0:Int)) rfl,
    foldl_agg_const (fun x y => x + y) (fun _ => V) V (fun _ => rfl)
        (chunkWidths (max_inps_per_batch (b : Int) n cap) n 0) (fun _ => (0:Int)),
    h3, iterate_add_apply]
  simp

theorem claim_constant_metric_scaling_witness :
    (1 ≤ (5:Int))
    ∧ divide_and_aggregate_metrics (fun x y => x + y)
        (fun _ => (fun _ => (3:Int) : Fin 2 → Int)) (fun _ => (0:Int))
        ((2:Nat) : Int) 5 (some 4) (0 : Fin 2)
      = (ceilDiv (5:Int).toNat (max_inps_per_batch ((2:Nat) : Int) 5 (some 4)).toNat : Int)
          * (fun _ => (3:Int) : Fin 2 → Int) (0 : Fin 2) :=
  ⟨by decide, claim_constant_metric_scaling 2 (fun _ => 3) 5 (some 4) (by decide) 0⟩

/-- C8: for every `n_samples ≥ 1` and every positive chunk width —
including adversarial widths greater than `n_samples` — the loop
terminates: finitely many applications of the loop body `aggregateStep`
starting from `(0, zeros)` reach a state whose counter equals
`n_samples` (so the guard `current_n_steps < n_samples` fails), and the
value there is the one `aggregateLoop` computes. -/
theorem claim_loop_termination (agg_func : α → α → α) (metric_func : Int → α)
    (zeros : α) (w n : Int) (hn : 1 ≤ n) (hw : 1 ≤ w) :
    ∃ k : Nat, ((aggregateStep agg_func metric_func w n)^[k] (0, zeros)).1 = n
      ∧ aggregateLoop agg_func metric_func w n 0 zeros
          = ((aggregateStep agg_func metric_func w n)^[k] (0, zeros)).2 :=
  aggregateLoop_run agg_func metric_func w n hw ((n - 0).toNat) 0 zeros rfl (by omega)

theorem claim_loop_termination_witness :
    (1 ≤ (3:Int)) ∧ (1 ≤ (7:Int))
    ∧ ∃ k : Nat,
        ((aggregateStep (fun x y => x + y) (fun x : Int => x) 7 3)^[k] (0, (0:Int))).1 = 3
        ∧ aggregateLoop (fun x y => x + y) (fun x : Int => x) 7 3 0 (0:Int)
            = ((aggregateStep (fun x y => x + y) (fun x : Int => x) 7 3)^[k] (0, (0:Int))).2 :=
  ⟨by decide, by decide,
   claim_loop_termination (fun x y => x + y) (fun x : Int => x) 0 7 3
     (by decide) (by decide)⟩

/-- C9: when `n_samples ≤ 0`, the while loop body never executes:
`metric_func` and `agg_func` are never invoked (the width trace is empty)
and the function returns the zero accumulator unchanged. -/
theorem claim_nonpositive_n_samples (agg_func : α → α → α) (metric_func : Int → α)
    (zeros : α) (bsz n : Int) (cap : Option Int) (hn : n ≤ 0) :
    divide_and_aggregate_metrics agg_func metric_func zeros bsz n cap = zeros
    ∧ chunkWidths (max_inps_per_batch bsz n cap) n 0 = [] := by
  constructor
  · show aggregateLoop agg_func metric_func (max_inps_per_batch bsz n cap) n 0 zeros
        = zeros
    rw [aggregateLoop.eq_def,
      dif_neg (by omega : ¬ ((0:Int) < n ∧ 0 < max_inps_per_batch bsz n cap))]
  · rw [chunkWidths.eq_def,
      dif_neg (by omega : ¬ ((0:Int) < n ∧ 0 < max_inps_per_batch bsz n cap))]

theorem claim_nonpositive_n_samples_witness :
    ((0:Int) ≤ 0)
    ∧ (divide_and_aggregate_metrics (fun x y => x + y) (fun x : Int => x) (0:Int)
          2 0 none = 0
        ∧ chunkWidths (max_inps_per_batch 2 0 none) 0 0 = []) :=
  ⟨by decide,
   claim_nonpositive_n_samples (fun x y => x + y) (fun x : Int => x) 0 2 0 none
     (by decide)⟩

/-- C10: for `n_samples ≥ 1` and a resolved chunk width `w ∈ [1, n_samples]`,
letting `k = ⌈n_samples / w⌉`, the returned value is the left-nested fold
of `agg_func` over `zeros` and the metric values at widths
`w, …, w, n_samples - (k - 1) * w` (the first `k - 1` widths are `w`, the
last is the remainder), every width lies in `[1, w]`, and for a
non-associative `agg_func` the result is fixed by this left-to-right
order. -/
theorem claim_left_fold_structure (agg_func : α → α → α) (metric_func : Int → α)
    (zeros : α) (bsz n : Int) (cap : Option Int) (w : Int)
    (hrw : max_inps_per_batch bsz n cap = w) (h1 : 1 ≤ w) (h2 : w ≤ n) :
    divide_and_aggregate_metrics agg_func metric_func zeros bsz n cap
        = List.foldl (fun acc wi => agg_func acc (metric_func wi)) zeros
            (List.replicate (ceilDiv n.toNat w.toNat - 1) w
              ++ [n - ((ceilDiv n.toNat w.toNat - 1 : Nat) : Int) * w])
    ∧ ∀ wi ∈ List.replicate (ceilDiv n.toNat w.toNat - 1) w
          ++ [n - ((ceilDiv n.toNat w.toNat - 1 : Nat) : Int) * w],
        1 ≤ wi ∧ wi ≤ w := by
  obtain ⟨j, hj, hlo, hhi⟩ := chunkWidths_shape w n h1 ((n - 0).toNat) 0 rfl (by omega)
  simp only [sub_zero] at hj hlo hhi
  have hlen := chunkWidths_length w n h1 ((n - 0).toNat) 0 rfl (by omega)
  simp only [sub_zero] at hlen
  rw [hj] at hlen
  simp only [List.length_append, List.length_replicate, List.length_cons,
    List.length_nil] at hlen
  have hk1 : ceilDiv n.toNat w.toNat - 1 = j := by omega
  rw [hk1]
  constructor
  · show aggregateLoop agg_func metric_func (max_inps_per_batch bsz n cap) n 0 zeros = _
    rw [hrw, aggregateLoop_eq_foldl agg_func metric_func w n ((n - 0).toNat) 0 zeros rfl,
      hj]
  · intro wi hwi
    rw [List.mem_append] at hwi
    rcases hwi with hwi | hwi
    · rw [List.eq_of_mem_replicate hwi]
      exact ⟨h1, le_refl w⟩
    · rw [List.mem_singleton] at hwi
      subst hwi
      exact ⟨hlo, hhi⟩

theorem claim_left_fold_structure_witness :
    (max_inps_per_batch 2 5 (some 4) = 2) ∧ (1 ≤ (2:Int)) ∧ ((2:Int) ≤ 5)
    ∧ (divide_and_aggregate_metrics (fun x y => x + y) (fun x : Int => x) (0:Int)
          2 5 (some 4)
        = List.foldl (fun acc wi => (fun x y => x + y) acc ((fun x : Int => x) wi)) 0
            (List.replicate (ceilDiv (5:Int).toNat (2:Int).toNat - 1) 2
              ++ [5 - ((ceilDiv (5:Int).toNat (2:Int).toNat - 1 : Nat) : Int) * 2])
      ∧ ∀ wi ∈ List.replicate (ceilDiv (5:Int).toNat (2:Int).toNat - 1) (2:Int)
            ++ [5 - ((ceilDiv (5:Int).toNat (2:Int).toNat - 1 : Nat) : Int) * 2],
          1 ≤ wi ∧ wi ≤ 2) :=
  ⟨by decide, by decide, by decide,
   claim_left_fold_structure (fun x y => x + y) (fun x : Int => x) 0 2 5 (some 4) 2
     (by decide) (by decide) (by decide)⟩

end Captum
